import Mathlib

/-!
# Verification of the QKD post-processing core (hackathon_challenge)

Shallow embedding of the classical post-processing pipeline of the
`hackathon_challenge` repository: bit utilities, Cascade reconciliation
(binary search, backtracking ledger, leakage accounting), the
authenticated socket, Toeplitz privacy amplification and the
entropy-based key-length estimate.

Conventions of the embedding:
* Python lists / numpy arrays of bits become `List Nat` (bits are `0`/`1`);
  `arr[i]` becomes `List.getD arr i 0` and in-place writes become `List.set`.
* Machine floats in exact formulas are modelled by `ℚ` where the source
  arithmetic is rational, and by `ℝ` where it uses `log2`.
* Fallible code returns `Option`/`Except`.
* External library primitives (numpy's seeded PCG64 stream, `hmac`/`pickle`)
  are universally quantified function parameters: every theorem about code
  calling them holds for an arbitrary implementation of the primitive.
-/

namespace QKD

/-- `compute_parity` from `reconciliation/utils.py`: XOR (sum mod 2) of the
key bits selected by `indices`.  Out-of-range access is irrelevant for the
in-range inputs of the theorems below and is modelled by `getD _ 0`. -/
def compute_parity (key : List Nat) (indices : List Nat) : Nat :=
  ((indices.map (fun i => key.getD i 0)).sum) % 2

/-- `compute_optimal_block_size` from `reconciliation/utils.py`, with the
float arithmetic `math.ceil(0.73 / qber)` modelled exactly over `ℚ`. -/
def compute_optimal_block_size (qber : ℚ) : Nat :=
  if qber ≤ 0 then 64
  else if (1 : ℚ)/2 ≤ qber then 4
  else max 4 (Int.toNat ⌈(73 : ℚ)/100 / qber⌉)

/-- `calculate_binary_search_leakage` from `reconciliation/binary_search.py`:
`0` for `block_size ≤ 1`, and `⌈log₂ block_size⌉` (the mathematical value of
`int(math.ceil(math.log2(block_size)))`) otherwise, rendered as `Nat.clog`. -/
def calculate_binary_search_leakage (block_size : Nat) : Nat :=
  if block_size ≤ 1 then 0 else Nat.clog 2 block_size

/-- The initial-block-size selection of `CascadeReconciliator.__init__`
(`reconciliation/cascade.py`): `max(4, initial_block_size)` for an explicit
override, else `compute_optimal_block_size(estimated_qber)` when an estimate
`> 0` is supplied, else the heuristic `max(4, key_length // 50)`. -/
def cascade_initial_block_size (key_length : Nat) (initial_block_size : Option Nat)
    (estimated_qber : Option ℚ) : Nat :=
  match initial_block_size with
  | some b => max 4 b
  | none =>
    match estimated_qber with
    | some q => if 0 < q then compute_optimal_block_size q else max 4 (key_length / 50)
    | none => max 4 (key_length / 50)

/-- The per-pass block sizes precomputed by `CascadeReconciliator.reconcile`:
starting from the initial block size, the size is recorded and doubled once
per pass. -/
def pass_block_sizes : Nat → Nat → List Nat
  | _, 0 => []
  | b, Nat.succ n => b :: pass_block_sizes (b * 2) n

/-- Entry `(i, j)` of `scipy.linalg.toeplitz(col, row)`:
`col[i-j]` on and below the diagonal, `row[j-i]` above it. -/
def toeplitz_entry (col row : List Nat) (i j : Nat) : Nat :=
  if j ≤ i then col.getD (i - j) 0 else row.getD (j - i) 0

/-- `PrivacyAmplifier.amplify` from `privacy.py` (the version imported by
`protocol.py`): checks `len(seed) == len(key) + new_length - 1` (raising
`ValueError` otherwise, modelled as `none`), builds the Toeplitz matrix from
`col = seed[:new_length]`, `row = seed[new_length-1:]` and returns
`(T @ key) % 2` row by row. -/
def amplify (key seed : List Nat) (new_length : Nat) : Option (List Nat) :=
  if seed.length = key.length + new_length - 1 then
    some ((List.range new_length).map (fun i =>
      ((List.range key.length).map
        (fun j => toeplitz_entry (seed.take new_length) (seed.drop (new_length - 1)) i j
          * key.getD j 0)).sum % 2))
  else none

/-- The `m × n` Toeplitz matrix described by the specification's words:
first column `seed[0:m]`, first row `seed[m-1:]`, constant along diagonals.
Stated directly on the full seed, for comparison with `amplify`. -/
def toeplitz_spec (seed : List Nat) (m i j : Nat) : Nat :=
  if j ≤ i then seed.getD (i - j) 0 else seed.getD (m - 1 + (j - i)) 0

/-- `binary_entropy` from `privacy/entropy.py`:
`0` outside the open interval `(0, 1)`, else `-p·log₂ p - (1-p)·log₂(1-p)`. -/
noncomputable def binary_entropy (p : ℝ) : ℝ :=
  if p ≤ 0 ∨ 1 ≤ p then 0
  else -p * Real.logb 2 p - (1 - p) * Real.logb 2 (1 - p)

/-- `compute_final_key_length` from `privacy/entropy.py`, with numpy floats
modelled over `ℝ`: `max(0, floor(n·(1-h(q)) - leak_EC - leak_ver -
2·log₂(1/ε)))`, following the source's intermediate values. -/
noncomputable def compute_final_key_length (reconciled_length : Nat) (qber : ℝ)
    (leakage_ec leakage_ver : Nat) (epsilon_sec : ℝ) : ℤ :=
  let security_margin : ℝ := 2 * Real.logb 2 (1 / epsilon_sec)
  let available : ℝ := (reconciled_length : ℝ) * (1 - binary_entropy qber)
  let final_length : ℝ := available - (leakage_ec : ℝ) - (leakage_ver : ℝ) - security_margin
  max 0 ⌊final_length⌋

/-! ## Permutation utilities (`reconciliation/utils.py`) -/

/-- Swap of two positions of a list (`arr[i], arr[j] = arr[j], arr[i]`, the
body of a Fisher–Yates step). -/
def list_swap (l : List Nat) (i j : Nat) : List Nat :=
  (l.set i (l.getD j 0)).set j (l.getD i 0)

/-- One step of numpy's `Generator.shuffle` at position `i`: draw
`j ∈ [0, i]` from the seeded stream and swap positions `i` and `j`.  The
stream is an arbitrary function `rand`; `% (i+1)` records the library's
guarantee that the draw is in range. -/
def shuffle_step (rand : Nat → Nat) (l : List Nat) (i : Nat) : List Nat :=
  list_swap l i (rand i % (i + 1))

/-- numpy `Generator.shuffle`: Fisher–Yates over positions
`n-1, n-2, …, 1`. -/
def fisher_yates (rand : Nat → Nat) (l : List Nat) : List Nat :=
  ((List.range' 1 (l.length - 1)).reverse).foldl (shuffle_step rand) l

/-- `permute_indices` from `reconciliation/utils.py`: `length < 1` raises
`ValueError` (modelled `none`); otherwise shuffle `arange(length)` with the
generator seeded by `seed * 1000 + pass_idx`.  `rand s` is the bounded draw
stream of numpy's PCG64 generator for combined seed `s` (an external
primitive, so an arbitrary function here). -/
def permute_indices (rand : Nat → Nat → Nat) (length seed pass_idx : Nat) :
    Option (List Nat) :=
  if length < 1 then none
  else some (fisher_yates (rand (seed * 1000 + pass_idx)) (List.range length))

/-- `inverse_permutation` from `reconciliation/utils.py`:
`inverse[permutation] = arange(n)`, i.e. the element-wise sequence of
assignments `inverse[permutation[i]] = i`, starting from an uninitialised
(`np.empty`) buffer modelled as zeros. -/
def inverse_permutation (perm : List Nat) : List Nat :=
  (List.range perm.length).foldl (fun acc i => acc.set (perm.getD i 0) i)
    (List.replicate perm.length 0)

/-! ## Authenticated socket (`auth/socket.py`)

`hmac.new(key, data, sha256).digest()` and `pickle.dumps` are external
library primitives; the socket is parameterised by them, so every theorem
holds for arbitrary implementations. -/

/-- A netqasm `StructuredMessage`. -/
structure StructuredMessage (α : Type) where
  header : String
  payload : α

/-- The payload of an envelope on the authenticated wire: either the
`(payload, tag)` pair built by `send_structured`, or any other shape (whose
unpacking `payload, tag = envelope.payload` raises `TypeError`/`ValueError`
in the source). -/
inductive EnvPayload (α : Type)
  | pair (payload : α) (tag : List Nat)
  | malformed

/-- `IntegrityError` from `auth/exceptions.py`, tagged with which of the two
`raise` sites produced it. -/
inductive IntegrityError
  | invalidFormat
  | hmacMismatch
deriving DecidableEq

/-- `header.encode("utf-8")`, as an injective byte encoding of the header. -/
def headerBytes (h : String) : List Nat := h.toList.map Char.toNat

/-- An `AuthenticatedSocket`: the pre-shared key together with the two
external primitives it calls (`hmac` = HMAC-SHA256, `ser` = `pickle.dumps`). -/
structure AuthenticatedSocket (α : Type) where
  key : List Nat
  hmac : List Nat → List Nat → List Nat
  ser : α → List Nat

/-- `AuthenticatedSocket.send_structured`: serialize the payload, MAC
`header_bytes ++ payload_bytes` with the pre-shared key, and wrap the
payload as `(payload, tag)`. -/
def AuthenticatedSocket.send_structured (s : AuthenticatedSocket α)
    (msg : StructuredMessage α) : StructuredMessage (EnvPayload α) :=
  let payload_bytes := s.ser msg.payload
  let header_bytes := headerBytes msg.header
  let tag := s.hmac s.key (header_bytes ++ payload_bytes)
  ⟨msg.header, EnvPayload.pair msg.payload tag⟩

/-- `AuthenticatedSocket.recv_structured`: unpack `(payload, tag)` (failure
⇒ `IntegrityError`), recompute the expected tag over the canonical bytes of
header and payload, compare (`hmac.compare_digest`), and only on success
return the original message. -/
def AuthenticatedSocket.recv_structured (s : AuthenticatedSocket α)
    (envelope : StructuredMessage (EnvPayload α)) :
    Except IntegrityError (StructuredMessage α) :=
  match envelope.payload with
  | EnvPayload.malformed => .error .invalidFormat
  | EnvPayload.pair payload received_tag =>
    let payload_bytes := s.ser payload
    let header_bytes := headerBytes envelope.header
    let expected_tag := s.hmac s.key (header_bytes ++ payload_bytes)
    if received_tag = expected_tag then .ok ⟨envelope.header, payload⟩
    else .error .hmacMismatch

/-! ## Backtracking ledger (`reconciliation/history.py`) -/

/-- `PassHistory` dataclass. -/
structure PassHistory where
  pass_index : Nat
  block_index : Nat
  indices : List Nat
  parity : Nat
deriving DecidableEq

/-- `BacktrackManager`: `history[p]` is `self._history[p]` (the dict with
keys `0 … num_passes - 1` becomes a list of lists), and `index_to_blocks` is
the reverse map `self._index_to_blocks` as an association list. -/
structure BacktrackManager where
  num_passes : Nat
  history : List (List PassHistory)
  index_to_blocks : List (Nat × List (Nat × Nat))
deriving DecidableEq

/-- A fresh manager (`__post_init__`: one empty entry list per pass). -/
def BacktrackManager.empty (num_passes : Nat) : BacktrackManager :=
  ⟨num_passes, List.replicate num_passes [], []⟩

/-- Append `pb` to the association-list entry for `idx`
(`self._index_to_blocks[idx].append((pass_index, block_index))`, creating
the entry if absent). -/
def add_index_block (m : List (Nat × List (Nat × Nat))) (idx : Nat)
    (pb : Nat × Nat) : List (Nat × List (Nat × Nat)) :=
  match m with
  | [] => [(idx, [pb])]
  | (k, v) :: rest =>
    if k = idx then (k, v ++ [pb]) :: rest
    else (k, v) :: add_index_block rest idx pb

/-- `BacktrackManager.record_block`: append a `PassHistory` entry to
`history[pass_index]` and register `(pass_index, block_index)` under every
index of the block in the reverse map. -/
def BacktrackManager.record_block (m : BacktrackManager) (pass_index block_index : Nat)
    (indices : List Nat) (parity : Nat) : BacktrackManager :=
  { m with
    history := m.history.set pass_index
      (m.history.getD pass_index [] ++ [⟨pass_index, block_index, indices, parity⟩]),
    index_to_blocks := indices.foldl
      (fun acc idx => add_index_block acc idx (pass_index, block_index))
      m.index_to_blocks }

/-- Reverse-map lookup (`self._index_to_blocks.get(idx)`, `[]` if the index
was never recorded). -/
def lookup_blocks (m : BacktrackManager) (idx : Nat) : List (Nat × Nat) :=
  match m.index_to_blocks.find? (fun kv => kv.1 == idx) with
  | some kv => kv.2
  | none => []

/-- `BacktrackManager.find_affected_blocks`: for every `(pass_idx, block_idx)`
recorded under `flipped_index` with `pass_idx < current_pass`, the first
entry of `history[pass_idx]` with that block index. -/
def BacktrackManager.find_affected_blocks (m : BacktrackManager)
    (flipped_index current_pass : Nat) : List PassHistory :=
  (lookup_blocks m flipped_index).filterMap (fun pb =>
    if pb.1 < current_pass then
      (m.history.getD pb.1 []).find? (fun e => e.block_index == pb.2)
    else none)

/-- Set the parity of the first entry with the given block index
(the loop-and-`break` of `update_block_parity`). -/
def set_parity_in (entries : List PassHistory) (block_index new_parity : Nat) :
    List PassHistory :=
  match entries with
  | [] => []
  | e :: rest =>
    if e.block_index == block_index then { e with parity := new_parity } :: rest
    else e :: set_parity_in rest block_index new_parity

/-- `BacktrackManager.update_block_parity`. -/
def BacktrackManager.update_block_parity (m : BacktrackManager)
    (pass_index block_index new_parity : Nat) : BacktrackManager :=
  { m with
    history := m.history.set pass_index
      (set_parity_in (m.history.getD pass_index []) block_index new_parity) }

/-- The structural invariant maintained by `record_block`: every entry
stored under key `p` of the history dict carries `pass_index = p`. -/
def BacktrackManager.WellFormed (m : BacktrackManager) : Prop :=
  ∀ p, p < m.history.length → ∀ e ∈ m.history.getD p [], e.pass_index = p

instance (m : BacktrackManager) : Decidable m.WellFormed := by
  unfold BacktrackManager.WellFormed; infer_instance

/-- One recursive call of `CascadeReconciliator._backtrack`: from
`(flipped, current)` the code recurses to `(error_idx, entry.pass_index)`
for an affected `entry`, where the corrected index returned by
`_binary_search_block` is one of `entry.indices`. -/
def BacktrackStep (m : BacktrackManager) (s t : Nat × Nat) : Prop :=
  ∃ e ∈ m.find_affected_blocks s.1 s.2, t.2 = e.pass_index ∧ t.1 ∈ e.indices

/-! ## Binary search (`reconciliation/binary_search.py`)

The initiator's `while right - left > 1` loop composed with the responder
under FIFO untampered delivery: the responder answers every
`CASCADE_REQ block_indices[left:mid]` with
`compute_parity(key_r, block_indices[left:mid])`, and exits on
`CASCADE_DONE`, returning its payload without touching its key. -/

/-- The interval-narrowing loop of `binary_search_initiator`, the responder's
replies inlined as `compute_parity key_r _`.  Returns the final `left`. -/
def bs_loop (block : List Nat) (key_i key_r : List Nat) (left right : Nat) : Nat :=
  if _h : left + 1 < right then
    let mid := (left + right) / 2
    let left_half := (block.drop left).take (mid - left)
    if compute_parity key_i left_half ≠ compute_parity key_r left_half then
      bs_loop block key_i key_r left mid
    else
      bs_loop block key_i key_r mid right
  else left
termination_by right - left
decreasing_by
  · omega
  · omega

/-- Joint FIFO run of `binary_search_initiator` (key `key_i`) against
`binary_search_responder` (key `key_r`) on the same block.  Both raise
`ValueError` on an empty block (`none`).  Otherwise the initiator narrows
to `block[left]`, flips its own bit there (`key_arr[error_index] ^= 1`),
and sends `CASCADE_DONE error_index`; the responder returns that index and
leaves its key untouched.  Result:
`(initiator return, initiator key after, responder return, responder key after)`. -/
def binary_search_run (block : List Nat) (key_i key_r : List Nat) :
    Option (Nat × List Nat × Nat × List Nat) :=
  if block.isEmpty then none
  else
    let l := bs_loop block key_i key_r 0 block.length
    let e := block.getD l 0
    some (e, key_i.set e ((key_i.getD e 0) ^^^ 1), e, key_r)

/-! ## Cascade pass executor (`reconciliation/cascade.py`)

Party-local view of `_exchange_and_correct_blocks` / `_binary_search_block`
/ `_backtrack`.  The two interactive ingredients are inputs: the peer's
block-parity vector `remote_parities`, and `oracle block`, the error index
the interactive binary search on `block` converges to (for the initiator
the index it flips; for the responder the `CASCADE_DONE` payload).  The
executor additionally returns the list of blocks on which a network binary
search was run, so that leakage accounting can be stated about it. -/

/-- One party's mutable reconciliation state: its key, its ledger, and the
`_leakage_bits` / `_errors_corrected` counters. -/
structure PartyState where
  key : List Nat
  mgr : BacktrackManager
  leakage_bits : Nat
  errors_corrected : Nat
deriving DecidableEq

/-- `CascadeReconciliator._binary_search_block`: empty block ⇒ `None`;
singleton ⇒ flip the own bit directly, no network, no leakage; otherwise
add `calculate_binary_search_leakage` and run the role's side of the
interactive search (summarised by `oracle`): the initiator flips at the
found index, the responder does not.  Returns
`(corrected index, new key, leakage added, network used)`. -/
def binary_search_block (is_initiator : Bool) (oracle : List Nat → Nat)
    (key : List Nat) (block_indices : List Nat) :
    Option Nat × List Nat × Nat × Bool :=
  match block_indices with
  | [] => (none, key, 0, false)
  | [i] => (some i, key.set i ((key.getD i 0) ^^^ 1), 0, false)
  | _ =>
    let leak := calculate_binary_search_leakage block_indices.length
    let e := oracle block_indices
    if is_initiator then
      (some e, key.set e ((key.getD e 0) ^^^ 1), leak, true)
    else
      (some e, key, leak, true)

mutual

/-- `CascadeReconciliator._backtrack`, with an explicit recursion budget
`fuel` (the source recursion is unbounded; its termination is the subject
of `BacktrackStep`).  Returns the new state and the blocks on which a
network binary search was run. -/
def backtrack (is_initiator : Bool) (oracle : List Nat → Nat) :
    Nat → PartyState → Nat → Nat → PartyState × List (List Nat)
  | 0, st, _, _ => (st, [])
  | fuel + 1, st, flipped, current =>
    backtrack_entries is_initiator oracle fuel st
      (st.mgr.find_affected_blocks flipped current)
termination_by fuel _ _ _ => (fuel, 0)

/-- The body of `_backtrack`'s `for history_entry in affected_blocks` loop:
recompute the block's parity, store it, and when it changed run
`_binary_search_block` on the block and recurse. -/
def backtrack_entries (is_initiator : Bool) (oracle : List Nat → Nat) :
    Nat → PartyState → List PassHistory → PartyState × List (List Nat)
  | _, st, [] => (st, [])
  | fuel, st, e :: rest =>
    let new_parity := compute_parity st.key e.indices
    let st1 : PartyState :=
      { st with mgr := st.mgr.update_block_parity e.pass_index e.block_index new_parity }
    if new_parity ≠ e.parity then
      let r := binary_search_block is_initiator oracle st1.key e.indices
      let searched1 := if 2 ≤ e.indices.length then [e.indices] else []
      let st2 : PartyState :=
        { st1 with key := r.2.1, leakage_bits := st1.leakage_bits + r.2.2.1 }
      match r.1 with
      | some err =>
        let st3 : PartyState := { st2 with errors_corrected := st2.errors_corrected + 1 }
        let bt := backtrack is_initiator oracle fuel st3 err e.pass_index
        let tail := backtrack_entries is_initiator oracle fuel bt.1 rest
        (tail.1, searched1 ++ bt.2 ++ tail.2)
      | none =>
        let tail := backtrack_entries is_initiator oracle fuel st2 rest
        (tail.1, searched1 ++ tail.2)
    else
      backtrack_entries is_initiator oracle fuel st1 rest
termination_by fuel _ entries => (fuel, entries.length + 1)

end

/-- The `for block_idx, block_indices in mismatched_blocks` loop of
`_exchange_and_correct_blocks`: binary search on each mismatched block,
count the corrected error and backtrack. -/
def correct_blocks (is_initiator : Bool) (oracle : List Nat → Nat) (fuel : Nat)
    (pass_index : Nat) : PartyState → List (List Nat) → PartyState × List (List Nat)
  | st, [] => (st, [])
  | st, b :: rest =>
    let r := binary_search_block is_initiator oracle st.key b
    let searched1 := if 2 ≤ b.length then [b] else []
    let st1 : PartyState := { st with key := r.2.1, leakage_bits := st.leakage_bits + r.2.2.1 }
    match r.1 with
    | some err =>
      let st2 : PartyState := { st1 with errors_corrected := st1.errors_corrected + 1 }
      let bt := backtrack is_initiator oracle fuel st2 err pass_index
      let tail := correct_blocks is_initiator oracle fuel pass_index bt.1 rest
      (tail.1, searched1 ++ bt.2 ++ tail.2)
    | none =>
      let tail := correct_blocks is_initiator oracle fuel pass_index st1 rest
      (tail.1, searched1 ++ tail.2)

/-- The `for block_idx, (block_indices, local_parity) in enumerate(...)`
recording loop of `_exchange_and_correct_blocks`. -/
def record_blocks : BacktrackManager → Nat → Nat → List (List Nat × Nat) → BacktrackManager
  | mgr, _, _, [] => mgr
  | mgr, pass_index, block_idx, (indices, parity) :: rest =>
    record_blocks (mgr.record_block pass_index block_idx indices parity)
      pass_index (block_idx + 1) rest

/-- `CascadeReconciliator._exchange_and_correct_blocks`, party-local view:
compute local parities, exchange them (`remote_parities` being what the peer
sent), add one leakage bit per block, record every block in the ledger,
then run binary search plus backtracking on each block whose local and
remote parities differ. -/
def exchange_and_correct_blocks (is_initiator : Bool) (oracle : List Nat → Nat)
    (fuel : Nat) (st : PartyState) (pass_index : Nat) (blocks : List (List Nat))
    (remote_parities : List Nat) : PartyState × List (List Nat) :=
  let local_parities := blocks.map (compute_parity st.key)
  let st1 : PartyState := { st with leakage_bits := st.leakage_bits + blocks.length }
  let st2 : PartyState :=
    { st1 with mgr := record_blocks st1.mgr pass_index 0 (blocks.zip local_parities) }
  let mismatched := ((local_parities.zip remote_parities).zip blocks).filterMap
    (fun x => if x.1.1 ≠ x.1.2 then some x.2 else none)
  correct_blocks is_initiator oracle fuel pass_index st2 mismatched

/-! ## Shared list lemmas -/

theorem getD_set_self {α : Type} {l : List α} {i : Nat} (a d : α) (h : i < l.length) :
    (l.set i a).getD i d = a := by
  simp [List.getD_eq_getElem?_getD, List.getElem?_set_self', h]

theorem getD_set_ne {α : Type} {l : List α} {i j : Nat} (a d : α) (h : i ≠ j) :
    (l.set i a).getD j d = l.getD j d := by
  simp [List.getD_eq_getElem?_getD, List.getElem?_set_ne h]

/-! ## C7: optimal initial block size -/

/-- C7: `compute_optimal_block_size` returns 64 for `qber ≤ 0`, 4 for
`qber ≥ 0.5`, and `max 4 ⌈0.73 / qber⌉` in between; in particular it maps
`0.073 ↦ 10`, `0 ↦ 64`, `0.5 ↦ 4`, and its result is always at least 4. -/
theorem compute_optimal_block_size_spec :
    (∀ q : ℚ, q ≤ 0 → compute_optimal_block_size q = 64) ∧
    (∀ q : ℚ, (1 : ℚ)/2 ≤ q → compute_optimal_block_size q = 4) ∧
    (∀ q : ℚ, 0 < q → q < 1/2 →
      compute_optimal_block_size q = max 4 (Int.toNat ⌈(73 : ℚ)/100 / q⌉)) ∧
    compute_optimal_block_size (73/1000) = 10 ∧
    compute_optimal_block_size 0 = 64 ∧
    compute_optimal_block_size (1/2) = 4 ∧
    (∀ q : ℚ, 4 ≤ compute_optimal_block_size q) := by
  refine ⟨?_, ?_, ?_, ?_, ?_, ?_, ?_⟩
  · intro q hq
    simp [compute_optimal_block_size, hq]
  · intro q hq
    have h0 : ¬ q ≤ 0 := by linarith
    unfold compute_optimal_block_size
    rw [if_neg h0, if_pos hq]
  · intro q h0 h2
    have h0' : ¬ q ≤ 0 := by linarith
    have h2' : ¬ (1 : ℚ)/2 ≤ q := by linarith
    unfold compute_optimal_block_size
    rw [if_neg h0', if_neg h2']
  · norm_num [compute_optimal_block_size]
    decide
  · norm_num [compute_optimal_block_size]
  · norm_num [compute_optimal_block_size]
  · intro q
    unfold compute_optimal_block_size
    split_ifs <;> simp

/-- Witness for C7 at concrete inputs. -/
theorem compute_optimal_block_size_spec_witness :
    compute_optimal_block_size (-1) = 64 ∧
    compute_optimal_block_size (3/4) = 4 ∧
    compute_optimal_block_size (1/10) = max 4 (Int.toNat ⌈(73 : ℚ)/100 / (1/10)⌉) ∧
    4 ≤ compute_optimal_block_size (1/5) :=
  ⟨compute_optimal_block_size_spec.1 (-1) (by norm_num),
   compute_optimal_block_size_spec.2.1 (3/4) (by norm_num),
   compute_optimal_block_size_spec.2.2.1 (1/10) (by norm_num) (by norm_num),
   compute_optimal_block_size_spec.2.2.2.2.2.2 (1/5)⟩

/-! ## C9: final key length -/

/-- C9: `compute_final_key_length` equals
`max 0 ⌊n·(1 - h(QBER)) - leak_EC - leak_ver - 2·log₂(1/ε)⌋` (hence is
never negative), where `binary_entropy` is `0` for `p ≤ 0` or `p ≥ 1` and
`-p·log₂ p - (1-p)·log₂(1-p)` for `0 < p < 1`. -/
theorem compute_final_key_length_spec :
    (∀ (n : Nat) (q : ℝ) (lec lver : Nat) (eps : ℝ),
      compute_final_key_length n q lec lver eps =
        max 0 ⌊(n : ℝ) * (1 - binary_entropy q) - (lec : ℝ) - (lver : ℝ)
          - 2 * Real.logb 2 (1 / eps)⌋ ∧
      0 ≤ compute_final_key_length n q lec lver eps) ∧
    (∀ p : ℝ, (p ≤ 0 ∨ 1 ≤ p) → binary_entropy p = 0) ∧
    (∀ p : ℝ, 0 < p → p < 1 →
      binary_entropy p = -p * Real.logb 2 p - (1 - p) * Real.logb 2 (1 - p)) := by
  refine ⟨?_, ?_, ?_⟩
  · intro n q lec lver eps
    constructor
    · simp only [compute_final_key_length]
    · exact le_max_left 0 _
  · intro p hp
    simp [binary_entropy, hp]
  · intro p h0 h1
    have h : ¬ (p ≤ 0 ∨ 1 ≤ p) := by push_neg; constructor <;> linarith
    simp [binary_entropy, h]

/-- Witness for C9: with `QBER = 0`, `ε = 1`, `n = 100`, `leak_EC = 10`,
`leak_ver = 5` the final key length evaluates to `85`. -/
theorem compute_final_key_length_spec_witness :
    compute_final_key_length 100 0 10 5 1 = 85 := by
  have h := (compute_final_key_length_spec.1 100 0 10 5 1).1
  have hent : binary_entropy 0 = 0 :=
    compute_final_key_length_spec.2.1 0 (Or.inl le_rfl)
  rw [h, hent]
  norm_num

/-! ## C6: Cascade block-size schedule -/

/-- Counterexample to C6 as stated: an explicit override of `2` is not used
as-is (the code clamps it to `max 4 _ = 4`), and a supplied estimated QBER
of `0` does not select `compute_optimal_block_size 0 = 64` (the code falls
back to the key-length heuristic, here `4`). -/
theorem cascade_initial_block_size_cex :
    (cascade_initial_block_size 100 (some 2) none = 4 ∧ (2 : Nat) ≠ 4) ∧
    (cascade_initial_block_size 100 none (some 0) = 4 ∧
      compute_optimal_block_size 0 = 64) := by
  refine ⟨⟨?_, by decide⟩, ⟨?_, ?_⟩⟩
  · simp [cascade_initial_block_size]
  · simp [cascade_initial_block_size]
  · norm_num [compute_optimal_block_size]

/-- C6 (amended): the initial block size is `max 4 override` when an
explicit override is given; otherwise `compute_optimal_block_size qber`
when an estimated QBER `> 0` is given; otherwise (no estimate, or estimate
`≤ 0`) `max 4 (key_length / 50)`; and the block size used in pass `p` is
the initial block size times `2^p`. -/
theorem cascade_block_size_spec :
    (∀ (kl b : Nat) (q : Option ℚ),
      cascade_initial_block_size kl (some b) q = max 4 b) ∧
    (∀ (kl : Nat) (q : ℚ), 0 < q →
      cascade_initial_block_size kl none (some q) = compute_optimal_block_size q) ∧
    (∀ (kl : Nat) (q : ℚ), q ≤ 0 →
      cascade_initial_block_size kl none (some q) = max 4 (kl / 50)) ∧
    (∀ kl : Nat, cascade_initial_block_size kl none none = max 4 (kl / 50)) ∧
    (∀ init n : Nat, (pass_block_sizes init n).length = n) ∧
    (∀ init n p : Nat, p < n →
      (pass_block_sizes init n).getD p 0 = init * 2 ^ p) := by
  refine ⟨?_, ?_, ?_, ?_, ?_, ?_⟩
  · intro kl b q; rfl
  · intro kl q hq; simp [cascade_initial_block_size, hq]
  · intro kl q hq
    have : ¬ 0 < q := by linarith
    simp [cascade_initial_block_size, this]
  · intro kl; rfl
  · intro init n
    induction n generalizing init with
    | zero => rfl
    | succ n ih => simp [pass_block_sizes, ih]
  · intro init n
    induction n generalizing init with
    | zero => intro p hp; omega
    | succ n ih =>
      intro p hp
      cases p with
      | zero => simp [pass_block_sizes]
      | succ p =>
        have := ih (init * 2) p (by omega)
        simp only [pass_block_sizes, List.getD_cons_succ, this]
        ring

/-- Witness for C6 (amended) at concrete inputs. -/
theorem cascade_block_size_spec_witness :
    cascade_initial_block_size 7 (some 10) none = max 4 10 ∧
    cascade_initial_block_size 300 none (some (1/10)) = compute_optimal_block_size (1/10) ∧
    cascade_initial_block_size 300 none none = max 4 (300 / 50) ∧
    (pass_block_sizes 4 3).getD 2 0 = 4 * 2 ^ 2 :=
  ⟨cascade_block_size_spec.1 7 10 none,
   cascade_block_size_spec.2.1 300 (1/10) (by norm_num),
   cascade_block_size_spec.2.2.2.1 300,
   cascade_block_size_spec.2.2.2.2.2 4 3 2 (by norm_num)⟩

/-! ## C2: privacy amplification -/

theorem getD_take (l : List Nat) {n i : Nat} (h : i < n) :
    (l.take n).getD i 0 = l.getD i 0 := by
  simp [List.getD_eq_getElem?_getD, List.getElem?_take, h]

theorem getD_drop (l : List Nat) (n i : Nat) :
    (l.drop n).getD i 0 = l.getD (n + i) 0 := by
  simp [List.getD_eq_getElem?_getD, List.getElem?_drop]

theorem toeplitz_entry_spec (seed : List Nat) (m i j : Nat) (hi : i < m) :
    toeplitz_entry (seed.take m) (seed.drop (m - 1)) i j = toeplitz_spec seed m i j := by
  unfold toeplitz_entry toeplitz_spec
  by_cases h : j ≤ i
  · rw [if_pos h, if_pos h, getD_take seed (by omega)]
  · rw [if_neg h, if_neg h, getD_drop]

theorem getD_map_range (f : Nat → Nat) {m i : Nat} (h : i < m) :
    ((List.range m).map f).getD i 0 = f i := by
  rw [List.getD_eq_getElem _ _ (by simpa using h)]
  simp

/-- C2: for `m ≥ 1`, `amplify` fails fast exactly when
`len(seed) ≠ len(key) + m - 1`; otherwise it returns `m` bits whose `i`-th
entry is row `i` of `(T · key) mod 2` for the Toeplitz matrix with first
column `seed[0:m]` and first row `seed[m-1:]` (`toeplitz_spec`).
Determinism over repeated calls is immediate: `amplify` is a function of
`(key, seed, m)`. -/
theorem amplify_spec (key seed : List Nat) (m : Nat) (_hm : 1 ≤ m) :
    (seed.length ≠ key.length + m - 1 → amplify key seed m = none) ∧
    (seed.length = key.length + m - 1 →
      ∃ res, amplify key seed m = some res ∧ res.length = m ∧
        ∀ i, i < m → res.getD i 0 =
          ((List.range key.length).map
            (fun j => toeplitz_spec seed m i j * key.getD j 0)).sum % 2) := by
  constructor
  · intro h
    simp [amplify, h]
  · intro h
    refine ⟨_, by rw [amplify, if_pos h], by simp, ?_⟩
    intro i hi
    rw [getD_map_range _ hi]
    have hmap : ∀ j ∈ List.range key.length,
        toeplitz_entry (seed.take m) (seed.drop (m - 1)) i j * key.getD j 0
          = toeplitz_spec seed m i j * key.getD j 0 := by
      intro j _
      rw [toeplitz_entry_spec seed m i j hi]
    rw [List.map_congr_left hmap]

/-- Witness for C2: key `[1,0,1]`, seed `[1,1,0,1]`; `m = 3` violates the
seed-length contract, `m = 2` satisfies it. -/
theorem amplify_spec_witness :
    amplify [1, 0, 1] [1, 1, 0, 1] 3 = none ∧
    (∃ res, amplify [1, 0, 1] [1, 1, 0, 1] 2 = some res ∧ res.length = 2 ∧
      ∀ i, i < 2 → res.getD i 0 =
        ((List.range 3).map
          (fun j => toeplitz_spec [1, 1, 0, 1] 2 i j * [1, 0, 1].getD j 0)).sum % 2) :=
  ⟨(amplify_spec [1, 0, 1] [1, 1, 0, 1] 3 (by decide)).1 (by decide),
   (amplify_spec [1, 0, 1] [1, 1, 0, 1] 2 (by decide)).2 (by decide)⟩

/-! ## C10: singleton mismatched block -/

/-- C10: on a singleton mismatched block, `_binary_search_block` flips the
party's own bit at that index and returns the index, with zero leakage
added and no network use, identically for both roles (so both parties flip
their own bit, unlike the interactive search where only the initiator
flips). -/
theorem binary_search_block_singleton :
    ∀ (is_initiator : Bool) (oracle : List Nat → Nat) (key : List Nat) (i : Nat),
      binary_search_block is_initiator oracle key [i]
        = (some i, key.set i ((key.getD i 0) ^^^ 1), 0, false) ∧
      binary_search_block true oracle key [i]
        = binary_search_block false oracle key [i] := by
  intro r o k i
  exact ⟨rfl, rfl⟩

/-! ## C3: authenticated socket -/

/-- C3: for any socket (arbitrary MAC and serializer primitives),
`recv_structured ∘ send_structured` is the identity on `(header, payload)`;
an envelope whose payload is not a `(payload, tag)` pair fails with an
`IntegrityError`, and so does any pair whose tag differs from the MAC
recomputed over the canonical bytes of header and payload — in both cases
no payload is returned. -/
theorem auth_socket_spec {α : Type} (s : AuthenticatedSocket α) :
    (∀ (h : String) (p : α),
      s.recv_structured (s.send_structured ⟨h, p⟩) = .ok ⟨h, p⟩) ∧
    (∀ env : StructuredMessage (EnvPayload α), env.payload = .malformed →
      s.recv_structured env = .error .invalidFormat) ∧
    (∀ (hd : String) (p : α) (t : List Nat),
      t ≠ s.hmac s.key (headerBytes hd ++ s.ser p) →
      s.recv_structured ⟨hd, .pair p t⟩ = .error .hmacMismatch) := by
  refine ⟨?_, ?_, ?_⟩
  · intro h p
    simp [AuthenticatedSocket.send_structured, AuthenticatedSocket.recv_structured]
  · intro env he
    cases env with
    | mk hd pl =>
      cases pl with
      | pair p t => exact absurd he (by simp)
      | malformed => rfl
  · intro hd p t ht
    simp [AuthenticatedSocket.recv_structured, ht]

/-- Witness for C3 on a concrete socket (key `[]`, MAC = the data itself,
serializer `n ↦ [n]`). -/
theorem auth_socket_spec_witness :
    AuthenticatedSocket.recv_structured (⟨[], fun _ d => d, fun x => [x]⟩ : AuthenticatedSocket Nat)
      (AuthenticatedSocket.send_structured ⟨[], fun _ d => d, fun x => [x]⟩ ⟨"A", 5⟩)
      = .ok ⟨"A", 5⟩ ∧
    AuthenticatedSocket.recv_structured (⟨[], fun _ d => d, fun x => [x]⟩ : AuthenticatedSocket Nat)
      ⟨"A", .pair 5 []⟩ = .error .hmacMismatch :=
  ⟨(auth_socket_spec _).1 "A" 5,
   (auth_socket_spec _).2.2 "A" 5 [] (by simp [headerBytes])⟩

/-! ## C4: backtracking terminates -/

theorem set_parity_in_pass_index {entries : List PassHistory} {bi np : Nat} :
    ∀ e ∈ set_parity_in entries bi np, ∃ e' ∈ entries, e.pass_index = e'.pass_index := by
  induction entries with
  | nil =>
    intro e he
    simp [set_parity_in] at he
  | cons a rest ih =>
    intro e he
    simp only [set_parity_in] at he
    split at he
    · rw [List.mem_cons] at he
      rcases he with he | he
      · exact ⟨a, List.mem_cons_self a rest, by rw [he]⟩
      · exact ⟨e, List.mem_cons_of_mem a he, rfl⟩
    · rw [List.mem_cons] at he
      rcases he with he | he
      · exact ⟨a, List.mem_cons_self a rest, by rw [he]⟩
      · obtain ⟨e', he', hp⟩ := ih e he
        exact ⟨e', List.mem_cons_of_mem a he', hp⟩

theorem update_preserves_wf (m : BacktrackManager) (h : m.WellFormed)
    (pi bi np : Nat) : (m.update_block_parity pi bi np).WellFormed := by
  intro p hp e he
  simp only [BacktrackManager.update_block_parity, List.length_set] at hp he
  by_cases hps : pi = p
  · subst hps
    have hlt : pi < m.history.length := hp
    rw [getD_set_self _ _ hlt] at he
    obtain ⟨e', he', hpe⟩ := set_parity_in_pass_index e he
    rw [hpe]
    exact h pi hlt e' he'
  · rw [getD_set_ne _ _ hps] at he
    exact h p hp e he

theorem find_affected_blocks_pass_lt (m : BacktrackManager) (hwf : m.WellFormed) :
    ∀ i p e, e ∈ m.find_affected_blocks i p → e.pass_index < p := by
  intro i p e he
  unfold BacktrackManager.find_affected_blocks at he
  rw [List.mem_filterMap] at he
  obtain ⟨pb, _hpb, hf⟩ := he
  by_cases hlt : pb.1 < p
  · rw [if_pos hlt] at hf
    have hmem := List.mem_of_find?_eq_some hf
    have hlen : pb.1 < m.history.length := by
      by_contra hge
      rw [List.getD_eq_default _ _ (by omega)] at hf
      simp at hf
    have := hwf pb.1 hlen e hmem
    omega
  · rw [if_neg hlt] at hf
    exact absurd hf (by simp)

/-- C4: on a well-formed ledger, `find_affected_blocks i p` returns only
blocks recorded with pass index `< p`; parity updates keep the ledger
well-formed; every recursive `_backtrack` call (`BacktrackStep`, whose new
current pass is the affected block's pass index) strictly decreases the
pass index; hence every recursion chain has length at most the starting
pass index, and at most `num_passes` when the start is in range. -/
theorem backtrack_termination (m : BacktrackManager) (hwf : m.WellFormed) :
    (∀ i p e, e ∈ m.find_affected_blocks i p → e.pass_index < p) ∧
    (∀ pi bi np, (m.update_block_parity pi bi np).WellFormed) ∧
    (∀ s t, BacktrackStep m s t → t.2 < s.2) ∧
    (∀ (n : Nat) (f : Nat → Nat × Nat),
      (∀ k, k < n → BacktrackStep m (f k) (f (k + 1))) → n ≤ (f 0).2) ∧
    (∀ (n : Nat) (f : Nat → Nat × Nat),
      (∀ k, k < n → BacktrackStep m (f k) (f (k + 1))) → (f 0).2 ≤ m.num_passes →
        n ≤ m.num_passes) := by
  have h1 := find_affected_blocks_pass_lt m hwf
  have h3 : ∀ s t, BacktrackStep m s t → t.2 < s.2 := by
    rintro s t ⟨e, he, hpass, -⟩
    rw [hpass]
    exact h1 s.1 s.2 e he
  have h4 : ∀ (n : Nat) (f : Nat → Nat × Nat),
      (∀ k, k < n → BacktrackStep m (f k) (f (k + 1))) → n ≤ (f 0).2 := by
    intro n f hchain
    have key : ∀ k, k ≤ n → (f k).2 + k ≤ (f 0).2 := by
      intro k
      induction k with
      | zero => simp
      | succ k ih =>
        intro hk
        have hle := ih (by omega)
        have hlt := h3 (f k) (f (k + 1)) (hchain k (by omega))
        omega
    have := key n le_rfl
    omega
  exact ⟨h1, fun pi bi np => update_preserves_wf m hwf pi bi np, h3, h4,
    fun n f hc hs => le_trans (h4 n f hc) hs⟩

/-- Witness for C4 on a concrete ledger holding one block of pass 0: it is
well-formed, and the affected entry found from pass 1 has pass index `< 1`. -/
theorem backtrack_termination_witness :
    ((BacktrackManager.empty 2).record_block 0 0 [1, 2] 1).WellFormed ∧
    (⟨0, 0, [1, 2], 1⟩ : PassHistory).pass_index < 1 :=
  ⟨by decide,
   (backtrack_termination ((BacktrackManager.empty 2).record_block 0 0 [1, 2] 1)
      (by decide)).1 1 1 ⟨0, 0, [1, 2], 1⟩ (by decide)⟩

/-! ## C8: permutation utilities -/

theorem cons_set_perm (t : List Nat) :
    ∀ (k : Nat) (a : Nat), k < t.length →
      (t.getD k 0 :: t.set k a).Perm (a :: t) := by
  induction t with
  | nil => intro k a h; simp at h
  | cons b s ih =>
    intro k a h
    cases k with
    | zero =>
      simp only [List.getD_cons_zero, List.set_cons_zero]
      exact List.Perm.swap a b s
    | succ k =>
      have hk : k < s.length := by simpa using h
      simp only [List.getD_cons_succ, List.set_cons_succ]
      have h1 : (s.getD k 0 :: b :: s.set k a).Perm (b :: s.getD k 0 :: s.set k a) :=
        List.Perm.swap b (s.getD k 0) (s.set k a)
      have h2 : (b :: s.getD k 0 :: s.set k a).Perm (b :: a :: s) :=
        (ih k a hk).cons b
      have h3 : (b :: a :: s).Perm (a :: b :: s) := List.Perm.swap a b s
      exact h1.trans (h2.trans h3)

theorem set_set_perm :
    ∀ (l : List Nat) (i j : Nat), i < l.length → j < l.length →
      ((l.set i (l.getD j 0)).set j (l.getD i 0)).Perm l := by
  intro l
  induction l with
  | nil => intro i j hi _; simp at hi
  | cons a t ih =>
    intro i j hi hj
    cases i with
    | zero =>
      cases j with
      | zero => simp
      | succ j =>
        have hj' : j < t.length := by simpa using hj
        simpa using cons_set_perm t j a hj'
    | succ i =>
      cases j with
      | zero =>
        have hi' : i < t.length := by simpa using hi
        simpa using cons_set_perm t i a hi'
      | succ j =>
        have hi' : i < t.length := by simpa using hi
        have hj' : j < t.length := by simpa using hj
        simpa using (ih i j hi' hj').cons a

theorem list_swap_perm (l : List Nat) (i j : Nat) (hi : i < l.length)
    (hj : j < l.length) : (list_swap l i j).Perm l :=
  set_set_perm l i j hi hj

theorem shuffle_fold_perm (rand : Nat → Nat) :
    ∀ (steps : List Nat) (l : List Nat), (∀ i ∈ steps, i < l.length) →
      (steps.foldl (shuffle_step rand) l).Perm l := by
  intro steps
  induction steps with
  | nil => intro l _; exact List.Perm.refl l
  | cons i rest ih =>
    intro l hsteps
    have hi : i < l.length := hsteps i (List.mem_cons_self i rest)
    have hj : rand i % (i + 1) < l.length := by
      have := Nat.mod_lt (rand i) (show 0 < i + 1 by omega)
      omega
    have hstep : (shuffle_step rand l i).Perm l := list_swap_perm l i _ hi hj
    have hlen : (shuffle_step rand l i).length = l.length := by
      simp [shuffle_step, list_swap]
    have hrest : ∀ k ∈ rest, k < (shuffle_step rand l i).length := by
      intro k hk
      rw [hlen]
      exact hsteps k (List.mem_cons_of_mem i hk)
    exact (ih (shuffle_step rand l i) hrest).trans hstep

theorem fisher_yates_perm (rand : Nat → Nat) (l : List Nat) :
    (fisher_yates rand l).Perm l := by
  unfold fisher_yates
  apply shuffle_fold_perm
  intro i hi
  rw [List.mem_reverse, List.mem_range'] at hi
  omega

theorem foldl_set_length (perm : List Nat) :
    ∀ (L : List Nat) (acc : List Nat),
      (L.foldl (fun acc i => acc.set (perm.getD i 0) i) acc).length = acc.length := by
  intro L
  induction L with
  | nil => intro acc; rfl
  | cons i rest ih =>
    intro acc
    rw [List.foldl_cons, ih, List.length_set]

theorem getD_lt_length_of_mem {perm : List Nat} {k : Nat} (h : k < perm.length)
    (hb : ∀ v ∈ perm, v < perm.length) : perm.getD k 0 < perm.length := by
  rw [List.getD_eq_getElem _ _ h]
  exact hb _ (List.getElem_mem h)

theorem inverse_foldl (perm : List Nat) (hnd : perm.Nodup)
    (hb : ∀ v ∈ perm, v < perm.length) :
    ∀ (m : Nat) (acc : List Nat), m ≤ perm.length → acc.length = perm.length →
      ∀ k, k < m →
        ((List.range m).foldl (fun acc i => acc.set (perm.getD i 0) i) acc).getD
          (perm.getD k 0) 0 = k := by
  intro m
  induction m with
  | zero => intro acc _ _ k hk; omega
  | succ m ih =>
    intro acc hm hacc k hk
    rw [List.range_succ, List.foldl_append, List.foldl_cons, List.foldl_nil]
    by_cases hkm : k = m
    · subst hkm
      apply getD_set_self
      rw [foldl_set_length, hacc]
      exact getD_lt_length_of_mem (by omega) hb
    · have hne : perm.getD m 0 ≠ perm.getD k 0 := by
        intro hEq
        rw [List.getD_eq_getElem _ _ (by omega : m < perm.length),
          List.getD_eq_getElem _ _ (by omega : k < perm.length)] at hEq
        exact hkm ((List.Nodup.getElem_inj_iff hnd).mp hEq.symm)
      rw [getD_set_ne _ _ hne]
      exact ih acc (by omega) hacc k (by omega)

/-- C8: for `n ≥ 1`, `permute_indices` (for an arbitrary PCG64 draw stream)
returns a permutation of `[0, n)` (every index appears exactly once); its
output depends only on `(n, seed, pass_idx)` — equal draw streams for the
combined seed give identical arrays; and `inverse_permutation` of any
permutation of `[0, n)` satisfies `inverse[perm[i]] = i` for all `i < n`,
so composing a permutation with its inverse is the identity. -/
theorem permute_indices_spec :
    (∀ (rand : Nat → Nat → Nat) (n seed p : Nat), 1 ≤ n →
      ∃ l, permute_indices rand n seed p = some l ∧ l.Perm (List.range n)) ∧
    (∀ (rand1 rand2 : Nat → Nat → Nat) (n seed p : Nat),
      rand1 (seed * 1000 + p) = rand2 (seed * 1000 + p) →
      permute_indices rand1 n seed p = permute_indices rand2 n seed p) ∧
    (∀ (perm : List Nat) (n : Nat), perm.Perm (List.range n) →
      ∀ i, i < n → (inverse_permutation perm).getD (perm.getD i 0) 0 = i) := by
  refine ⟨?_, ?_, ?_⟩
  · intro rand n seed p hn
    refine ⟨fisher_yates (rand (seed * 1000 + p)) (List.range n), ?_, ?_⟩
    · rw [permute_indices, if_neg (by omega)]
    · exact fisher_yates_perm _ _
  · intro rand1 rand2 n seed p h
    unfold permute_indices
    rw [h]
  · intro perm n hp i hi
    have hlen : perm.length = n := by
      have := hp.length_eq
      simpa using this
    have hnd : perm.Nodup := hp.nodup_iff.mpr (List.nodup_range n)
    have hb : ∀ v ∈ perm, v < perm.length := by
      intro v hv
      rw [hlen]
      have := hp.mem_iff.mp hv
      simpa using this
    unfold inverse_permutation
    exact inverse_foldl perm hnd hb perm.length (List.replicate perm.length 0)
      le_rfl (by simp) i (by omega)

/-- Witness for C8: a concrete draw stream on `n = 3`, and the inverse
property of the resulting permutation at `i = 1`. -/
theorem permute_indices_spec_witness :
    (∃ l, permute_indices (fun _ _ => 0) 3 0 0 = some l ∧ l.Perm (List.range 3)) ∧
    (inverse_permutation [1, 2, 0]).getD ([1, 2, 0].getD 1 0) 0 = 1 :=
  ⟨permute_indices_spec.1 (fun _ _ => 0) 3 0 0 (by decide),
   permute_indices_spec.2.2 [1, 2, 0] 3 (by decide) 1 (by decide)⟩

/-! ## C1: binary search localizes the unique error -/

theorem parity_congr {k1 k2 : List Nat} {S : List Nat}
    (h : ∀ j ∈ S, k1.getD j 0 = k2.getD j 0) :
    compute_parity k1 S = compute_parity k2 S := by
  unfold compute_parity
  rw [List.map_congr_left (fun j hj => h j hj)]

theorem parity_diff {k1 k2 : List Nat} {S : List Nat} (hnd : S.Nodup) {e : Nat}
    (he : e ∈ S) (hagree : ∀ j ∈ S, j ≠ e → k1.getD j 0 = k2.getD j 0)
    (hdiff : k1.getD e 0 % 2 ≠ k2.getD e 0 % 2) :
    compute_parity k1 S ≠ compute_parity k2 S := by
  unfold compute_parity
  have hperm : S.Perm (e :: S.erase e) := List.perm_cons_erase he
  have h1 : (S.map fun i => k1.getD i 0).sum
      = k1.getD e 0 + ((S.erase e).map fun i => k1.getD i 0).sum := by
    rw [(hperm.map _).sum_eq]
    simp
  have h2 : (S.map fun i => k2.getD i 0).sum
      = k2.getD e 0 + ((S.erase e).map fun i => k2.getD i 0).sum := by
    rw [(hperm.map _).sum_eq]
    simp
  have h3 : (S.erase e).map (fun i => k1.getD i 0)
      = (S.erase e).map (fun i => k2.getD i 0) := by
    refine List.map_congr_left ?_
    intro j hj
    have hj' := (List.Nodup.mem_erase_iff hnd).mp hj
    exact hagree j hj'.2 hj'.1
  rw [h1, h2, h3]
  omega

theorem sub_block_length {block : List Nat} {left mid : Nat} (h1 : left ≤ mid)
    (h2 : mid ≤ block.length) :
    ((block.drop left).take (mid - left)).length = mid - left := by
  simp only [List.length_take, List.length_drop]
  omega

theorem sub_block_getD {block : List Nat} {left mid p : Nat} (h1 : left ≤ p)
    (h2 : p < mid) (_h3 : mid ≤ block.length) :
    ((block.drop left).take (mid - left)).getD (p - left) 0 = block.getD p 0 := by
  rw [getD_take _ (by omega), getD_drop]
  congr 1
  omega

theorem sub_block_mem {block : List Nat} {left mid p : Nat} (h1 : left ≤ p)
    (h2 : p < mid) (h3 : mid ≤ block.length) :
    block.getD p 0 ∈ (block.drop left).take (mid - left) := by
  rw [← sub_block_getD h1 h2 h3,
    List.getD_eq_getElem _ _ (by rw [sub_block_length (by omega) h3]; omega)]
  exact List.getElem_mem _

theorem sub_block_mem_elim {block : List Nat} {left mid : Nat} {j : Nat}
    (h3 : mid ≤ block.length)
    (hj : j ∈ (block.drop left).take (mid - left)) :
    ∃ p, left ≤ p ∧ p < mid ∧ p < block.length ∧ block.getD p 0 = j := by
  obtain ⟨idx, hidx, hval⟩ := List.getElem_of_mem hj
  simp only [List.length_take, List.length_drop] at hidx
  have h5 : idx < mid - left := by omega
  have h6 : left + idx < block.length := by omega
  refine ⟨left + idx, by omega, by omega, by omega, ?_⟩
  rw [← hval, List.getD_eq_getElem _ _ h6]
  rw [List.getElem_take, List.getElem_drop]

theorem sub_block_nodup {block : List Nat} (hnd : block.Nodup) (left mid : Nat) :
    ((block.drop left).take (mid - left)).Nodup :=
  ((List.take_sublist _ _).trans (List.drop_sublist _ _)).nodup hnd

theorem bs_loop_finds {block key_i key_r : List Nat} (hnd : block.Nodup)
    {d : Nat} (_hd : d < block.length)
    (hagree : ∀ p, p < block.length → p ≠ d →
      key_i.getD (block.getD p 0) 0 = key_r.getD (block.getD p 0) 0)
    (hdiff : key_i.getD (block.getD d 0) 0 % 2 ≠ key_r.getD (block.getD d 0) 0 % 2) :
    ∀ (fuel left right : Nat), right - left ≤ fuel → left ≤ d → d < right →
      right ≤ block.length → bs_loop block key_i key_r left right = d := by
  intro fuel
  induction fuel with
  | zero => intro left right h1 h2 h3 h4; omega
  | succ fuel ih =>
    intro left right h1 h2 h3 h4
    rw [bs_loop]
    by_cases hlr : left + 1 < right
    · rw [dif_pos hlr]
      simp only []
      have hmid1 : left < (left + right) / 2 := by omega
      have hmid2 : (left + right) / 2 < right := by omega
      have hmle : (left + right) / 2 ≤ block.length := by omega
      by_cases hdm : d < (left + right) / 2
      · have hpar : compute_parity key_i ((block.drop left).take ((left + right) / 2 - left))
            ≠ compute_parity key_r ((block.drop left).take ((left + right) / 2 - left)) := by
          refine parity_diff (sub_block_nodup hnd _ _) (sub_block_mem h2 hdm hmle) ?_ hdiff
          intro j hj hje
          obtain ⟨p, hp1, hp2, hp3, hp4⟩ := sub_block_mem_elim hmle hj
          have hpd : p ≠ d := by
            intro hEq
            exact hje (by rw [← hp4, hEq])
          rw [← hp4]
          exact hagree p hp3 hpd
        rw [if_pos hpar]
        exact ih left ((left + right) / 2) (by omega) h2 hdm (by omega)
      · have hpar : compute_parity key_i ((block.drop left).take ((left + right) / 2 - left))
            = compute_parity key_r ((block.drop left).take ((left + right) / 2 - left)) := by
          refine parity_congr ?_
          intro j hj
          obtain ⟨p, hp1, hp2, hp3, hp4⟩ := sub_block_mem_elim hmle hj
          have hpd : p ≠ d := by omega
          rw [← hp4]
          exact hagree p hp3 hpd
        rw [if_neg (fun hne => hne hpar)]
        exact ih ((left + right) / 2) right (by omega) (by omega) h3 h4
    · rw [dif_neg hlr]
      omega

theorem getD_lt_two {key : List Nat} (hbits : ∀ b ∈ key, b < 2) (j : Nat) :
    key.getD j 0 < 2 := by
  by_cases h : j < key.length
  · rw [List.getD_eq_getElem _ _ h]
    exact hbits _ (List.getElem_mem h)
  · rw [List.getD_eq_default _ _ (by omega)]
    omega

theorem bit_flip_eq {a b : Nat} (ha : a < 2) (hb : b < 2) (hne : a ≠ b) :
    a ^^^ 1 = b := by
  interval_cases a <;> interval_cases b <;> simp_all

/-- C1: running `binary_search_initiator` against `binary_search_responder`
(FIFO, untampered) on a non-empty block of distinct in-range indices where
the two equal-length bit keys differ at exactly one block index `e`: both
return `e`, the initiator's key is flipped at `e` and nowhere else, the
responder's key is unchanged, and afterwards the keys agree on every index
of the block. -/
theorem binary_search_correct (block key_i key_r : List Nat) (e : Nat)
    (hne : block ≠ []) (hnd : block.Nodup)
    (hrange : ∀ j ∈ block, j < key_i.length)
    (_hlen : key_i.length = key_r.length)
    (hbits_i : ∀ b ∈ key_i, b < 2) (hbits_r : ∀ b ∈ key_r, b < 2)
    (he : e ∈ block) (hdiff : key_i.getD e 0 ≠ key_r.getD e 0)
    (hagree : ∀ j ∈ block, j ≠ e → key_i.getD j 0 = key_r.getD j 0) :
    binary_search_run block key_i key_r
      = some (e, key_i.set e ((key_i.getD e 0) ^^^ 1), e, key_r) ∧
    (∀ j ∈ block, (key_i.set e ((key_i.getD e 0) ^^^ 1)).getD j 0 = key_r.getD j 0) ∧
    (∀ j, j ≠ e → (key_i.set e ((key_i.getD e 0) ^^^ 1)).getD j 0 = key_i.getD j 0) := by
  obtain ⟨d, hd, hde⟩ := List.getElem_of_mem he
  have hgd : block.getD d 0 = e := by
    rw [List.getD_eq_getElem _ _ hd, hde]
  have hloop : bs_loop block key_i key_r 0 block.length = d := by
    refine bs_loop_finds hnd hd ?_ ?_ block.length 0 block.length (by omega) (by omega)
      hd le_rfl
    · intro p hp hpd
      have hmem : block.getD p 0 ∈ block := by
        rw [List.getD_eq_getElem _ _ hp]
        exact List.getElem_mem hp
      have hne' : block.getD p 0 ≠ e := by
        intro hEq
        apply hpd
        rw [List.getD_eq_getElem _ _ hp] at hEq
        rw [← hde] at hEq
        exact (List.Nodup.getElem_inj_iff hnd).mp hEq
      exact hagree _ hmem hne'
    · rw [hgd]
      have ha := getD_lt_two hbits_i e
      have hb := getD_lt_two hbits_r e
      rw [Nat.mod_eq_of_lt ha, Nat.mod_eq_of_lt hb]
      exact hdiff
  have hrun : binary_search_run block key_i key_r
      = some (e, key_i.set e ((key_i.getD e 0) ^^^ 1), e, key_r) := by
    rw [binary_search_run, if_neg (by simpa using hne)]
    simp only [hloop, hgd]
  refine ⟨hrun, ?_, ?_⟩
  · intro j hj
    by_cases hje : j = e
    · subst hje
      rw [getD_set_self _ _ (hrange j hj)]
      exact bit_flip_eq (getD_lt_two hbits_i j) (getD_lt_two hbits_r j) hdiff
    · rw [getD_set_ne _ _ (fun hEq => hje hEq.symm)]
      exact hagree j hj hje
  · intro j hje
    rw [getD_set_ne _ _ (fun hEq => hje hEq.symm)]

/-- Witness for C1: keys `[1,0,1,1]` / `[1,0,0,1]` differing only at index
2 inside the block `[0,1,2,3]`. -/
theorem binary_search_correct_witness :
    binary_search_run [0, 1, 2, 3] [1, 0, 1, 1] [1, 0, 0, 1]
      = some (2, [1, 0, 0, 1], 2, [1, 0, 0, 1]) := by
  have h := (binary_search_correct [0, 1, 2, 3] [1, 0, 1, 1] [1, 0, 0, 1] 2
    (by decide) (by decide) (by decide) (by decide) (by decide) (by decide)
    (by decide) (by decide) (by decide)).1
  simpa using h

/-! ## C5: leakage accounting -/

/-- Total binary-search leakage attributed to a list of searched blocks. -/
def searched_leak (searched : List (List Nat)) : Nat :=
  (searched.map (fun b => calculate_binary_search_leakage b.length)).sum

theorem searched_leak_append (s1 s2 : List (List Nat)) :
    searched_leak (s1 ++ s2) = searched_leak s1 + searched_leak s2 := by
  simp [searched_leak]

/-- Leakage accounting invariant of one executor step: the new leakage
counter is the old one plus the binary-search cost of exactly the searched
blocks, and every searched block has at least two indices. -/
def LeakAccounted (st : PartyState) (out : PartyState × List (List Nat)) : Prop :=
  out.1.leakage_bits = st.leakage_bits + searched_leak out.2 ∧
  ∀ b ∈ out.2, 2 ≤ b.length

theorem binary_search_block_leak (r : Bool) (oracle : List Nat → Nat)
    (key : List Nat) (b : List Nat) :
    (binary_search_block r oracle key b).2.2.1
      = if 2 ≤ b.length then calculate_binary_search_leakage b.length else 0 := by
  match b with
  | [] => simp [binary_search_block]
  | [i] => simp [binary_search_block]
  | i :: j :: rest =>
    have h2 : 2 ≤ (i :: j :: rest).length := by simp
    rw [if_pos h2]
    cases r <;> simp [binary_search_block]

theorem searched_leak_if (c : Prop) [Decidable c] (b : List Nat) :
    searched_leak (if c then [b] else [])
      = if c then calculate_binary_search_leakage b.length else 0 := by
  by_cases h : c <;> simp [h, searched_leak]

theorem entries_leak_of_bt (is_init : Bool) (oracle : List Nat → Nat) (fuel : Nat)
    (hbt : ∀ st flipped current,
      LeakAccounted st (backtrack is_init oracle fuel st flipped current)) :
    ∀ (entries : List PassHistory) (st : PartyState),
      LeakAccounted st (backtrack_entries is_init oracle fuel st entries) := by
  intro entries
  induction entries with
  | nil =>
    intro st
    exact ⟨by simp [backtrack_entries, searched_leak], by simp [backtrack_entries]⟩
  | cons e rest ih =>
    intro st
    simp only [backtrack_entries]
    by_cases hnp : compute_parity st.key e.indices ≠ e.parity
    · rw [if_pos hnp]
      rcases hr : binary_search_block is_init oracle st.key e.indices with
        ⟨res, key', dleak, net⟩
      have hdleak : dleak
          = if 2 ≤ e.indices.length
            then calculate_binary_search_leakage e.indices.length else 0 := by
        have := binary_search_block_leak is_init oracle st.key e.indices
        rw [hr] at this
        exact this
      simp only [hr]
      cases res with
      | some err =>
        dsimp only
        obtain ⟨hbt1, hbt2⟩ := hbt
          { key := key',
            mgr := st.mgr.update_block_parity e.pass_index e.block_index
              (compute_parity st.key e.indices),
            leakage_bits := st.leakage_bits + dleak,
            errors_corrected := st.errors_corrected + 1 } err e.pass_index
        obtain ⟨hih1, hih2⟩ := ih (backtrack is_init oracle fuel
          { key := key',
            mgr := st.mgr.update_block_parity e.pass_index e.block_index
              (compute_parity st.key e.indices),
            leakage_bits := st.leakage_bits + dleak,
            errors_corrected := st.errors_corrected + 1 } err e.pass_index).1
        constructor
        · dsimp only
          rw [searched_leak_append, searched_leak_append, searched_leak_if]
          dsimp only at hbt1 hih1
          omega
        · intro b hb
          rcases List.mem_append.mp hb with hb | hb
          · rcases List.mem_append.mp hb with hb | hb
            · by_cases hc : 2 ≤ e.indices.length
              · rw [if_pos hc] at hb
                rcases List.mem_singleton.mp hb with rfl
                exact hc
              · rw [if_neg hc] at hb
                simp at hb
            · exact hbt2 b hb
          · exact hih2 b hb
      | none =>
        dsimp only
        obtain ⟨hih1, hih2⟩ := ih
          { key := key',
            mgr := st.mgr.update_block_parity e.pass_index e.block_index
              (compute_parity st.key e.indices),
            leakage_bits := st.leakage_bits + dleak,
            errors_corrected := st.errors_corrected }
        constructor
        · dsimp only
          rw [searched_leak_append, searched_leak_if]
          dsimp only at hih1
          omega
        · intro b hb
          rcases List.mem_append.mp hb with hb | hb
          · by_cases hc : 2 ≤ e.indices.length
            · rw [if_pos hc] at hb
              rcases List.mem_singleton.mp hb with rfl
              exact hc
            · rw [if_neg hc] at hb
              simp at hb
          · exact hih2 b hb
    · rw [if_neg hnp]
      exact ih _

theorem backtrack_leak (is_init : Bool) (oracle : List Nat → Nat) :
    ∀ (fuel : Nat) (st : PartyState) (flipped current : Nat),
      LeakAccounted st (backtrack is_init oracle fuel st flipped current) := by
  intro fuel
  induction fuel with
  | zero =>
    intro st f c
    exact ⟨by simp [backtrack, searched_leak], by simp [backtrack]⟩
  | succ fuel ih =>
    intro st f c
    simp only [backtrack]
    exact entries_leak_of_bt is_init oracle fuel ih _ st

theorem correct_blocks_leak (is_init : Bool) (oracle : List Nat → Nat)
    (fuel pass_index : Nat) :
    ∀ (bs : List (List Nat)) (st : PartyState),
      LeakAccounted st (correct_blocks is_init oracle fuel pass_index st bs) := by
  intro bs
  induction bs with
  | nil =>
    intro st
    exact ⟨by simp [correct_blocks, searched_leak], by simp [correct_blocks]⟩
  | cons b rest ih =>
    intro st
    simp only [correct_blocks]
    rcases hr : binary_search_block is_init oracle st.key b with ⟨res, key', dleak, net⟩
    have hdleak : dleak
        = if 2 ≤ b.length then calculate_binary_search_leakage b.length else 0 := by
      have := binary_search_block_leak is_init oracle st.key b
      rw [hr] at this
      exact this
    simp only [hr]
    cases res with
    | some err =>
      dsimp only
      obtain ⟨hbt1, hbt2⟩ := backtrack_leak is_init oracle fuel
        { key := key', mgr := st.mgr, leakage_bits := st.leakage_bits + dleak,
          errors_corrected := st.errors_corrected + 1 } err pass_index
      obtain ⟨hih1, hih2⟩ := ih (backtrack is_init oracle fuel
        { key := key', mgr := st.mgr, leakage_bits := st.leakage_bits + dleak,
          errors_corrected := st.errors_corrected + 1 } err pass_index).1
      constructor
      · dsimp only
        rw [searched_leak_append, searched_leak_append, searched_leak_if]
        dsimp only at hbt1 hih1
        omega
      · intro x hx
        rcases List.mem_append.mp hx with hx | hx
        · rcases List.mem_append.mp hx with hx | hx
          · by_cases hc : 2 ≤ b.length
            · rw [if_pos hc] at hx
              rcases List.mem_singleton.mp hx with rfl
              exact hc
            · rw [if_neg hc] at hx
              simp at hx
          · exact hbt2 x hx
        · exact hih2 x hx
    | none =>
      dsimp only
      obtain ⟨hih1, hih2⟩ := ih
        { key := key', mgr := st.mgr, leakage_bits := st.leakage_bits + dleak,
          errors_corrected := st.errors_corrected }
      constructor
      · dsimp only
        rw [searched_leak_append, searched_leak_if]
        dsimp only at hih1
        omega
      · intro x hx
        rcases List.mem_append.mp hx with hx | hx
        · by_cases hc : 2 ≤ b.length
          · rw [if_pos hc] at hx
            rcases List.mem_singleton.mp hx with rfl
            exact hc
          · rw [if_neg hc] at hx
            simp at hx
        · exact hih2 x hx

/-- C5: in every Cascade pass, `_leakage_bits` grows by exactly one bit per
block of the pass (mismatch or not) plus `calculate_binary_search_leakage`
of the size of each block on which a network binary search was run (all of
which have size `≥ 2`); and `calculate_binary_search_leakage k` is `0` for
`k ≤ 1` and `⌈log₂ k⌉` for `k > 1` (characterised by
`2^(c-1) < k ≤ 2^c`), with values `0,1,2,3,3` at `k = 1,2,4,5,8`. -/
theorem cascade_pass_leakage :
    (∀ (is_init : Bool) (oracle : List Nat → Nat) (fuel : Nat) (st : PartyState)
        (pass_index : Nat) (blocks : List (List Nat)) (remote_parities : List Nat),
      (exchange_and_correct_blocks is_init oracle fuel st pass_index blocks
          remote_parities).1.leakage_bits
        = st.leakage_bits + blocks.length
          + searched_leak (exchange_and_correct_blocks is_init oracle fuel st
              pass_index blocks remote_parities).2 ∧
      ∀ b ∈ (exchange_and_correct_blocks is_init oracle fuel st pass_index blocks
          remote_parities).2, 2 ≤ b.length) ∧
    (∀ k, 1 < k → 2 ^ (calculate_binary_search_leakage k - 1) < k ∧
      k ≤ 2 ^ calculate_binary_search_leakage k) ∧
    (∀ k, k ≤ 1 → calculate_binary_search_leakage k = 0) ∧
    calculate_binary_search_leakage 1 = 0 ∧
    calculate_binary_search_leakage 2 = 1 ∧
    calculate_binary_search_leakage 4 = 2 ∧
    calculate_binary_search_leakage 5 = 3 ∧
    calculate_binary_search_leakage 8 = 3 := by
  have hval : ∀ k c : Nat, 2 ≤ k → k ≤ 2 ^ c → 2 ^ (c - 1) < k →
      calculate_binary_search_leakage k = c := by
    intro k c hk hle hlt
    have h1 : Nat.clog 2 k ≤ c := (Nat.le_pow_iff_clog_le (by omega)).mp hle
    have h2 : c - 1 < Nat.clog 2 k := (Nat.pow_lt_iff_lt_clog (by omega)).mp hlt
    have hc : Nat.clog 2 k = c := by omega
    rw [calculate_binary_search_leakage, if_neg (by omega), hc]
  refine ⟨?_, ?_, ?_, ?_, ?_, ?_, ?_, ?_⟩
  · intro is_init oracle fuel st pass_index blocks remote_parities
    have h := correct_blocks_leak is_init oracle fuel pass_index
      ((((blocks.map (compute_parity st.key)).zip remote_parities).zip blocks).filterMap
        (fun (x : (Nat × Nat) × List Nat) => if x.1.1 ≠ x.1.2 then some x.2 else none))
      { key := st.key,
        mgr := record_blocks st.mgr pass_index 0
          (blocks.zip (blocks.map (compute_parity st.key))),
        leakage_bits := st.leakage_bits + blocks.length,
        errors_corrected := st.errors_corrected }
    exact ⟨h.1, h.2⟩
  · intro k hk
    constructor
    · rw [calculate_binary_search_leakage, if_neg (by omega)]
      exact Nat.pow_pred_clog_lt_self (by omega) hk
    · rw [calculate_binary_search_leakage, if_neg (by omega)]
      exact Nat.le_pow_clog (by omega) k
  · intro k hk
    rw [calculate_binary_search_leakage, if_pos hk]
  · rw [calculate_binary_search_leakage, if_pos (by omega)]
  · exact hval 2 1 (by omega) (by norm_num) (by norm_num)
  · exact hval 4 2 (by omega) (by norm_num) (by norm_num)
  · exact hval 5 3 (by omega) (by norm_num) (by norm_num)
  · exact hval 8 3 (by omega) (by norm_num) (by norm_num)

/-- Witness for C5: a two-block pass with matching parities adds exactly
two leakage bits and runs no binary search; and concrete leakage values. -/
theorem cascade_pass_leakage_witness :
    (exchange_and_correct_blocks true (fun _ => 0) 1
        ⟨[1, 0], BacktrackManager.empty 1, 0, 0⟩ 0 [[0], [1]] [1, 0]).1.leakage_bits
      = 0 + 2 + searched_leak (exchange_and_correct_blocks true (fun _ => 0) 1
        ⟨[1, 0], BacktrackManager.empty 1, 0, 0⟩ 0 [[0], [1]] [1, 0]).2 ∧
    2 ^ (calculate_binary_search_leakage 5 - 1) < 5 ∧
    5 ≤ 2 ^ calculate_binary_search_leakage 5 :=
  ⟨(cascade_pass_leakage.1 true (fun _ => 0) 1
      ⟨[1, 0], BacktrackManager.empty 1, 0, 0⟩ 0 [[0], [1]] [1, 0]).1,
   (cascade_pass_leakage.2.1 5 (by omega)).1,
   (cascade_pass_leakage.2.1 5 (by omega)).2⟩

end QKD
